import Mathlib

/-!
Shallow embedding of `andyday/go-log` (`src/logger.go`), a thin
context-aware logging façade over the logrus backend, together with
proofs of the specified properties of its argument-normalization and
context-field-extraction pipeline.

Go's dynamically typed `interface{}` values are embedded as the
inductive `GoVal`; Go slices become Lean lists; the logrus backend's
field map becomes an association list with overwrite-on-insert
semantics.  Floating-point values are carried abstractly by their
decimal rendering (Go prints the same shortest decimal form for `%v`
and for JSON), and values whose dynamic type implements `fmt.Stringer`
or `error` carry both their textual representation and the result of
JSON-marshalling their underlying data.
-/

namespace GoLog

/-- Signed integer widths appearing in the type switch of
`normalizeArgs` (`int, int64, int32, int16, int8`). -/
inductive IntW where
  | i | i64 | i32 | i16 | i8
deriving DecidableEq

/-- Unsigned integer widths appearing in the type switch of
`normalizeArgs` (`uint, uint64, uint32, uint16, uint8`). -/
inductive UintW where
  | u | u64 | u32 | u16 | u8
deriving DecidableEq

/-- A Go `interface{}` value, as classified by the repository's code:
strings, integers of every width, floats, booleans, `fmt.Stringer`
implementors (carrying their `String()` rendering and the JSON
marshalling of their underlying data), `error` implementors (carrying
their `Error()` message and JSON marshalling likewise), the nil
interface, pointers, slices, string-keyed maps, structs (named fields
in declaration order), and the JSON-unmarshalable kinds (channels and
functions). -/
inductive GoVal where
  | str (s : String)
  | intV (w : IntW) (n : Int)
  | uintV (w : UintW) (n : Nat)
  | floatV (lit : String)
  | boolV (b : Bool)
  | stringer (repr : String) (json : Option String)
  | errV (msg : String) (json : Option String)
  | nilV
  | ptrV (v : Option GoVal)
  | sliceV (xs : List GoVal)
  | mapV (entries : List (String × GoVal))
  | structV (fields : List (String × GoVal))
  | chanV
  | funcV

mutual
/-- Go's `==` on two `interface{}` values: equal dynamic type and
equal value.  (Context keys are required by `context.WithValue` to be
comparable; for the uncomparable kinds this comparison is structural,
which never arises for keys in the repository.) -/
def goEq : GoVal → GoVal → Bool
  | .str a, .str b => a = b
  | .intV w a, .intV w2 b => w = w2 && a = b
  | .uintV w a, .uintV w2 b => w = w2 && a = b
  | .floatV a, .floatV b => a = b
  | .boolV a, .boolV b => a = b
  | .stringer r j, .stringer r2 j2 => r = r2 && j = j2
  | .errV m j, .errV m2 j2 => m = m2 && j = j2
  | .nilV, .nilV => true
  | .ptrV none, .ptrV none => true
  | .ptrV (some a), .ptrV (some b) => goEq a b
  | .sliceV xs, .sliceV ys => goEqList xs ys
  | .mapV xs, .mapV ys => goEqEntries xs ys
  | .structV xs, .structV ys => goEqEntries xs ys
  | .chanV, .chanV => true
  | .funcV, .funcV => true
  | _, _ => false

/-- Element-wise `goEq` on lists of values. -/
def goEqList : List GoVal → List GoVal → Bool
  | [], [] => true
  | a :: as_, b :: bs => goEq a b && goEqList as_ bs
  | _, _ => false

/-- Element-wise `goEq` on key/value entry lists. -/
def goEqEntries : List (String × GoVal) → List (String × GoVal) → Bool
  | [], [] => true
  | (k, a) :: as_, (k2, b) :: bs => k = k2 && goEq a b && goEqEntries as_ bs
  | _, _ => false
end

/-- One hexadecimal digit, lower case. -/
def hexDigit (n : Nat) : Char :=
  if n < 10 then Char.ofNat (48 + n) else Char.ofNat (87 + n)

/-- How `encoding/json` escapes a single character inside a string
literal: quote, backslash, the two-character escapes for newline,
carriage return and tab, `\u00XX` for other control characters, and
(HTML escaping being on by default) `<`, `>`, `&` for
angle brackets and ampersand. -/
def jsonEscapeChar (c : Char) : String :=
  if c = '"' then "\\\""
  else if c = '\\' then "\\\\"
  else if c = '\n' then "\\n"
  else if c = '\r' then "\\r"
  else if c = '\t' then "\\t"
  else if c = '<' then "\\u003c"
  else if c = '>' then "\\u003e"
  else if c = '&' then "\\u0026"
  else if c.toNat < 32 then
    "\\u00" ++ String.mk [hexDigit (c.toNat / 16), hexDigit (c.toNat % 16)]
  else String.singleton c

/-- A JSON string literal for `s`, as `encoding/json` produces it. -/
def jsonQuote (s : String) : String :=
  "\"" ++ String.join (s.data.map jsonEscapeChar) ++ "\""

/-- Insert a key/encoded-value pair into a list sorted by key
(`encoding/json` sorts the keys of a string-keyed map byte-wise, which
on UTF-8 agrees with code-point order). -/
def insertPair (p : String × String) : List (String × String) → List (String × String)
  | [] => [p]
  | q :: rest => if q.1 < p.1 then q :: insertPair p rest else p :: q :: rest

/-- Sort key/encoded-value pairs by key, as `encoding/json` does for
map entries. -/
def sortPairs : List (String × String) → List (String × String)
  | [] => []
  | p :: rest => insertPair p (sortPairs rest)

/-- Render already-encoded key/value pairs as a JSON object body. -/
def renderObj (kvs : List (String × String)) : String :=
  "\x7b" ++ String.intercalate "," (kvs.map fun p => jsonQuote p.1 ++ ":" ++ p.2) ++ "\x7d"

mutual
/-- `encoding/json.Marshal` on a `GoVal`: `none` is a marshalling
error.  Strings quote, numbers and booleans print their literals, a
nil interface or nil pointer marshals to `null`, a non-nil pointer
marshals its pointee, slices marshal element-wise, string-keyed maps
marshal with keys sorted, structs marshal their fields in declaration
order, and channels and functions are unsupported types.  A value
backed by a `fmt.Stringer` or `error` implementation marshals its
underlying data, carried in the constructor. -/
def goJsonMarshal : GoVal → Option String
  | .str s => some (jsonQuote s)
  | .intV _ n => some (toString n)
  | .uintV _ n => some (toString n)
  | .floatV lit => some lit
  | .boolV b => some (if b then "true" else "false")
  | .stringer _ j => j
  | .errV _ j => j
  | .nilV => some "null"
  | .ptrV none => some "null"
  | .ptrV (some v) => goJsonMarshal v
  | .sliceV xs =>
    (marshalItems xs).map fun ss => "[" ++ String.intercalate "," ss ++ "]"
  | .mapV es =>
    (marshalEntries es).map fun kvs => renderObj (sortPairs kvs)
  | .structV fs =>
    (marshalEntries fs).map fun kvs => renderObj kvs
  | .chanV => none
  | .funcV => none

/-- Marshal each element of a slice; fail if any element fails. -/
def marshalItems : List GoVal → Option (List String)
  | [] => some []
  | v :: rest => do
    let s ← goJsonMarshal v
    let r ← marshalItems rest
    pure (s :: r)

/-- Marshal each value of a key/value entry list; fail if any fails. -/
def marshalEntries : List (String × GoVal) → Option (List (String × String))
  | [] => some []
  | (k, v) :: rest => do
    let s ← goJsonMarshal v
    let r ← marshalEntries rest
    pure ((k, s) :: r)
end

/-- `jsonString` (src/logger.go:196-202): marshal the value; on any
marshalling error return the empty string. -/
def jsonString (v : GoVal) : String :=
  (goJsonMarshal v).getD ""

/-- The classification performed by the type switch of
`normalizeArgs` (src/logger.go:185-192): strings, all signed and
unsigned integer widths, both float widths, booleans, `fmt.Stringer`
implementors and `error` implementors are passed through. -/
def passThrough : GoVal → Bool
  | .str _ => true
  | .intV _ _ => true
  | .uintV _ _ => true
  | .floatV _ => true
  | .boolV _ => true
  | .stringer _ _ => true
  | .errV _ _ => true
  | _ => false

/-- The per-element transformation of `normalizeArgs`: pass-through
classes unchanged, everything else replaced by its `jsonString`. -/
def normalizeOne (v : GoVal) : GoVal :=
  if passThrough v then v else .str (jsonString v)

/-- `normalizeArgs` (src/logger.go:184-194): walk the argument slice
in order, appending each pass-through value unchanged and the
`jsonString` of every other value. -/
def normalizeArgs : List GoVal → List GoVal
  | [] => []
  | v :: rest => normalizeOne v :: normalizeArgs rest

mutual
/-- `fmt.Sprintf("%v", v)` on a `GoVal`: strings print verbatim,
numbers and booleans their literals, a `fmt.Stringer` prints its
`String()` result and an `error` its `Error()` message, nil prints
`<nil>`, maps print sorted `map[k:v ...]`, structs `\x7bv ...\x7d` and
slices `[v ...]`. -/
def goSprint : GoVal → String
  | .str s => s
  | .intV _ n => toString n
  | .uintV _ n => toString n
  | .floatV lit => lit
  | .boolV b => if b then "true" else "false"
  | .stringer r _ => r
  | .errV m _ => m
  | .nilV => "<nil>"
  | .ptrV none => "<nil>"
  | .ptrV (some v) => "&" ++ goSprint v
  | .sliceV xs => "[" ++ String.intercalate " " (sprintItems xs) ++ "]"
  | .mapV es =>
    "map[" ++ String.intercalate " "
      ((sortPairs (sprintEntries es)).map fun p => p.1 ++ ":" ++ p.2) ++ "]"
  | .structV fs =>
    "\x7b" ++ String.intercalate " " ((sprintEntries fs).map (·.2)) ++ "\x7d"
  | .chanV => "<chan>"
  | .funcV => "<func>"

/-- `%v`-print each element of a slice. -/
def sprintItems : List GoVal → List String
  | [] => []
  | v :: rest => goSprint v :: sprintItems rest

/-- `%v`-print each value of a key/value entry list. -/
def sprintEntries : List (String × GoVal) → List (String × String)
  | [] => []
  | (k, v) :: rest => (k, goSprint v) :: sprintEntries rest
end

/-- A `logrus.Fields` map, embedded as an association list whose
insert overwrites the existing binding of the key. -/
abbrev Fields := List (String × GoVal)

/-- Go map assignment `fields[k] = v`: replace the binding in place if
`k` is present, otherwise add it. -/
def fieldsSet (fs : Fields) (k : String) (v : GoVal) : Fields :=
  if (List.any fs fun p => p.1 = k) then
    List.map (fun p => if p.1 = k then (k, v) else p) fs
  else fs ++ [(k, v)]

/-- Go map lookup `fields[k]`. -/
def fieldsGet (fs : Fields) (k : String) : Option GoVal :=
  (List.find? (fun p => p.1 = k) fs).map (·.2)

/-- A `context.Context` viewed as its key/value lookup chain, most
recently added pair first (`context.WithValue` shadows outward). -/
abbrev Ctx := List (GoVal × GoVal)

/-- `ctx.Value(k)`: the innermost value stored under a key equal (in
the sense of Go `==`) to `k`; `none` is Go's nil result. -/
def ctxValue (ctx : Ctx) (k : GoVal) : Option GoVal :=
  (List.find? (fun p => goEq p.1 k) ctx).map (·.2)

/-- The outcome of a computation that may panic: `none` models a Go
runtime panic (here, a failed `val.(string)` type assertion). -/
def withContextLoop (ctx : Ctx) : List GoVal → Fields → Option Fields
  | [], fields => some fields
  | f :: rest, fields =>
    match ctxValue ctx f with
    | none => withContextLoop ctx rest fields
    | some val =>
      match val with
      | .nilV => withContextLoop ctx rest fields
      | .str s => withContextLoop ctx rest (fieldsSet fields (goSprint f) (.str s))
      | _ => none

/-- `withContext` (src/logger.go:98-107): for each registered context
key `f`, look up `ctx.Value(f)`; when the result is non-nil, store it
under the key's `%v` rendering after the unchecked type assertion
`val.(string)` — which panics (`none`) when the value is not a
string.  The resulting field set seeds the log entry. -/
def withContext (ctxFields : List GoVal) (ctx : Ctx) : Option Fields :=
  withContextLoop ctx ctxFields []

/-- The one concrete `Fld` implementation (`fld`,
src/logger.go:113-120): a key/value pair whose `apply` writes
`fields[key] = value`. -/
structure Fld where
  key : String
  value : GoVal

/-- `Field` (src/logger.go:122-127): construct a `Fld`, eagerly
replacing an error-typed value by its `Error()` message. -/
def Field (key : String) (value : GoVal) : Fld :=
  match value with
  | .errV msg _ => ⟨key, .str msg⟩
  | v => ⟨key, v⟩

/-- The fresh `logrus.Fields` built by `withFields`
(src/logger.go:129-135): apply each explicit `Fld` in order into an
empty map. -/
def applyFlds (flds : List Fld) : Fields :=
  List.foldl (fun fs f => fieldsSet fs f.key f.value) [] flds

/-- Modelled from the spec: the backend collaborator's "derive a child
logger/entry with an attached field mapping" operation
(`logrus.Entry.WithFields`, §4.3/§6 of the spec) — each new field's
key/value is applied into the base mapping, later writes overwriting
earlier ones on key collision. -/
def entryWithFields (base : Fields) (new : Fields) : Fields :=
  List.foldl (fun acc p => fieldsSet acc p.1 p.2) base new

/-- What a logging call hands to the backend: the final field set and
the message payload (for `Level` calls) or format string plus argument
slice (for `Levelf` calls). -/
structure Emission where
  fields : Fields
  msg : Option GoVal
  format : Option String
  args : List GoVal

/-- `Info` (src/logger.go:138-140): context fields first, then the
explicit fields, then emit the message as-is.  `none` is a panic
propagated out of `withContext`. -/
def Info (ctxFields : List GoVal) (ctx : Ctx) (i : GoVal) (flds : List Fld) :
    Option Emission :=
  (withContext ctxFields ctx).map fun cf =>
    ⟨entryWithFields cf (applyFlds flds), some i, none, []⟩

/-- `Warn` (src/logger.go:147-149): same pipeline as `Info`. -/
def Warn (ctxFields : List GoVal) (ctx : Ctx) (w : GoVal) (flds : List Fld) :
    Option Emission :=
  (withContext ctxFields ctx).map fun cf =>
    ⟨entryWithFields cf (applyFlds flds), some w, none, []⟩

/-- `Error` (src/logger.go:156-158): same pipeline as `Info`. -/
def Error (ctxFields : List GoVal) (ctx : Ctx) (e : GoVal) (flds : List Fld) :
    Option Emission :=
  (withContext ctxFields ctx).map fun cf =>
    ⟨entryWithFields cf (applyFlds flds), some e, none, []⟩

/-- `Debug` (src/logger.go:165-167): same pipeline as `Info`. -/
def Debug (ctxFields : List GoVal) (ctx : Ctx) (d : GoVal) (flds : List Fld) :
    Option Emission :=
  (withContext ctxFields ctx).map fun cf =>
    ⟨entryWithFields cf (applyFlds flds), some d, none, []⟩

/-- `Infof` (src/logger.go:143-145): context fields, then the format
string with arguments passed through `normalizeArgs`. -/
def Infof (ctxFields : List GoVal) (ctx : Ctx) (format : String)
    (a : List GoVal) : Option Emission :=
  (withContext ctxFields ctx).map fun cf =>
    ⟨cf, none, some format, normalizeArgs a⟩

/-- `Warnf` (src/logger.go:152-154): as `Infof`. -/
def Warnf (ctxFields : List GoVal) (ctx : Ctx) (format : String)
    (a : List GoVal) : Option Emission :=
  (withContext ctxFields ctx).map fun cf =>
    ⟨cf, none, some format, normalizeArgs a⟩

/-- `Errorf` (src/logger.go:160-162): as `Infof`. -/
def Errorf (ctxFields : List GoVal) (ctx : Ctx) (format : String)
    (a : List GoVal) : Option Emission :=
  (withContext ctxFields ctx).map fun cf =>
    ⟨cf, none, some format, normalizeArgs a⟩

/-- `Debugf` (src/logger.go:170-172): as `Infof`. -/
def Debugf (ctxFields : List GoVal) (ctx : Ctx) (format : String)
    (a : List GoVal) : Option Emission :=
  (withContext ctxFields ctx).map fun cf =>
    ⟨cf, none, some format, normalizeArgs a⟩

/-- `Fatalf` (src/logger.go:180-182): context fields, then the format
string with the raw argument slice — `normalizeArgs` is NOT applied.
(The process-terminating side effect of the backend's `Fatalf` is not
part of the emitted data.) -/
def Fatalf (ctxFields : List GoVal) (ctx : Ctx) (format : String)
    (args : List GoVal) : Option Emission :=
  (withContext ctxFields ctx).map fun cf =>
    ⟨cf, none, some format, args⟩

/-- The three formatter choices (src/logger.go:18-24). -/
inductive Formatter where
  | SimpleFormatter
  | TextFormatter
  | JSONFormatter
deriving DecidableEq

/-- `strings.ToLower`: character-wise lower-casing of the name (the
formatter names concerned are ASCII). -/
def stringsToLower (s : String) : String :=
  String.mk (s.data.map Char.toLower)

/-- `FormatterFromName` (src/logger.go:76-83): lower-case the name,
look it up in `formatMap` (`simple`, `text`, `json`), and fall back to
the JSON formatter when absent. -/
def FormatterFromName (name : String) : Formatter :=
  let lower := stringsToLower name
  if lower = "simple" then .SimpleFormatter
  else if lower = "text" then .TextFormatter
  else if lower = "json" then .JSONFormatter
  else .JSONFormatter

/-- The value written last under key `k` by the entry list `P`
(`none` when `P` never writes `k`). -/
def lastPairVal (P : Fields) (k : String) : Option GoVal :=
  (List.find? (fun p => p.1 = k) P.reverse).map (·.2)

/-- The value of the last explicit `Fld` carrying key `k` (`none`
when no explicit field has that key). -/
def lastFldVal (flds : List Fld) (k : String) : Option GoVal :=
  (List.find? (fun f => f.key = k) flds.reverse).map (·.value)

/-- The key/value writes `withContext` performs for the registered
keys of `cks` whose context value is a string: the key printed with
`%v`, paired with the looked-up string. -/
def ctxPairs (ctx : Ctx) : List GoVal → Fields
  | [] => []
  | f :: rest =>
    match ctxValue ctx f with
    | some (.str s) => (goSprint f, .str s) :: ctxPairs ctx rest
    | _ => ctxPairs ctx rest

/-- Left-biased choice on optional values, used to state the
last-write-wins merge laws. -/
def optOr (a b : Option GoVal) : Option GoVal :=
  match a with
  | some v => some v
  | none => b

/-! ## General lemmas about the embedded operations -/

lemma normalizeArgs_eq_map (a : List GoVal) : normalizeArgs a = a.map normalizeOne := by
  induction a with
  | nil => rfl
  | cons v rest ih => simp [normalizeArgs, ih]

lemma fieldsGet_map_set_ne {k k' : String} (v : GoVal) (h : k' ≠ k) (fs : Fields) :
    fieldsGet (fs.map fun p => if p.1 = k then (k, v) else p) k' = fieldsGet fs k' := by
  induction fs with
  | nil => rfl
  | cons p rest ih =>
    simp only [List.map_cons, fieldsGet]
    by_cases hp : p.1 = k
    · rw [if_pos hp, List.find?_cons_of_neg _ (by simp [Ne.symm h]),
        List.find?_cons_of_neg _ (by simp [hp, Ne.symm h])]
      exact ih
    · rw [if_neg hp]
      by_cases hpk : p.1 = k'
      · rw [List.find?_cons_of_pos _ (by simp [hpk]), List.find?_cons_of_pos _ (by simp [hpk])]
      · rw [List.find?_cons_of_neg _ (by simp [hpk]), List.find?_cons_of_neg _ (by simp [hpk])]
        exact ih

lemma fieldsGet_map_set_self {k : String} (v : GoVal) (fs : Fields)
    (hany : (fs.any fun p => p.1 = k) = true) :
    fieldsGet (fs.map fun p => if p.1 = k then (k, v) else p) k = some v := by
  induction fs with
  | nil => simp at hany
  | cons p rest ih =>
    simp only [List.map_cons, fieldsGet]
    by_cases hp : p.1 = k
    · rw [if_pos hp, List.find?_cons_of_pos _ (by simp)]
      rfl
    · have hrest : (rest.any fun p => p.1 = k) = true := by
        simpa [List.any_cons, hp] using hany
      rw [if_neg hp, List.find?_cons_of_neg _ (by simp [hp])]
      simpa [fieldsGet] using ih hrest

lemma fieldsGet_none_of_not_any {k : String} (fs : Fields)
    (hany : (fs.any fun p => p.1 = k) = false) :
    fieldsGet fs k = none := by
  induction fs with
  | nil => rfl
  | cons p rest ih =>
    have h1 : decide (p.1 = k) = false ∧ (rest.any fun p => p.1 = k) = false := by
      simpa [List.any_cons] using hany
    simp only [fieldsGet]
    rw [List.find?_cons_of_neg _ (by simp [h1.1])]
    simpa [fieldsGet] using ih h1.2

lemma fieldsGet_fieldsSet (fs : Fields) (k : String) (v : GoVal) (k' : String) :
    fieldsGet (fieldsSet fs k v) k' = if k' = k then some v else fieldsGet fs k' := by
  rw [fieldsSet]
  by_cases hany : (fs.any fun p => p.1 = k) = true
  · rw [if_pos hany]
    by_cases hk : k' = k
    · subst hk
      rw [if_pos rfl]
      exact fieldsGet_map_set_self v fs hany
    · rw [if_neg hk]
      exact fieldsGet_map_set_ne v hk fs
  · rw [if_neg hany]
    have hany2 : (fs.any fun p => p.1 = k) = false := by
      cases h : (fs.any fun p => p.1 = k)
      · rfl
      · exact absurd h hany
    by_cases hk : k' = k
    · subst hk
      have h1 : fieldsGet fs k' = none := fieldsGet_none_of_not_any fs hany2
      rw [if_pos rfl, fieldsGet, List.find?_append]
      rw [fieldsGet] at h1
      cases hfind : List.find? (fun p => p.1 = k') fs with
      | some p => simp [hfind] at h1
      | none => simp [hfind, List.find?]
    · rw [if_neg hk, fieldsGet, List.find?_append]
      cases hfind : List.find? (fun p => p.1 = k') fs with
      | some p => simp [fieldsGet, hfind]
      | none => simp [fieldsGet, hfind, List.find?, hk, Ne.symm hk]

lemma lastPairVal_cons (p : String × GoVal) (P : Fields) (k : String) :
    lastPairVal (p :: P) k =
      optOr (lastPairVal P k) (if p.1 = k then some p.2 else none) := by
  rw [lastPairVal, List.reverse_cons, List.find?_append]
  cases hfind : List.find? (fun q => q.1 = k) P.reverse with
  | some q => simp [lastPairVal, hfind, optOr]
  | none =>
    by_cases hp : p.1 = k <;> simp [lastPairVal, hfind, optOr, List.find?, hp]

lemma fieldsGet_foldlSet (P : Fields) :
    ∀ (base : Fields) (k : String),
      fieldsGet (List.foldl (fun acc q => fieldsSet acc q.1 q.2) base P) k
        = optOr (lastPairVal P k) (fieldsGet base k) := by
  induction P with
  | nil => intro base k; simp [lastPairVal, optOr]
  | cons p rest ih =>
    intro base k
    rw [List.foldl_cons, ih, lastPairVal_cons]
    cases hl : lastPairVal rest k with
    | some v => simp [optOr]
    | none =>
      rw [fieldsGet_fieldsSet]
      by_cases hp : p.1 = k
      · simp [optOr, hp]
      · have hk : ¬ k = p.1 := fun h => hp h.symm
        simp [optOr, hp, hk]

lemma keys_fieldsSet (fs : Fields) (k : String) (v : GoVal)
    (h : (fs.map Prod.fst).Nodup) : ((fieldsSet fs k v).map Prod.fst).Nodup := by
  rw [fieldsSet]
  by_cases hany : (fs.any fun p => p.1 = k) = true
  · rw [if_pos hany]
    have e : (fs.map fun p => if p.1 = k then (k, v) else p).map Prod.fst = fs.map Prod.fst := by
      rw [List.map_map]
      apply List.map_congr_left
      intro p hp
      by_cases hp1 : p.1 = k <;> simp [hp1]
    rw [e]
    exact h
  · rw [if_neg hany]
    have hnot : k ∉ fs.map Prod.fst := by
      intro hmem
      rcases List.mem_map.mp hmem with ⟨p, hpmem, hpk⟩
      exact hany (List.any_eq_true.mpr ⟨p, hpmem, by simp [hpk]⟩)
    rw [List.map_append]
    simp only [List.map_cons, List.map_nil]
    rw [List.nodup_append]
    exact ⟨h, List.nodup_singleton k, by simpa [List.disjoint_singleton] using hnot⟩

lemma keys_foldlSet (P : Fields) :
    ∀ base : Fields, (base.map Prod.fst).Nodup →
      ((List.foldl (fun acc q => fieldsSet acc q.1 q.2) base P).map Prod.fst).Nodup := by
  induction P with
  | nil => intro base h; exact h
  | cons p rest ih =>
    intro base h
    rw [List.foldl_cons]
    exact ih _ (keys_fieldsSet base p.1 p.2 h)

lemma lastPairVal_none_of_not_mem {fs : Fields} {k : String}
    (h : k ∉ fs.map Prod.fst) : lastPairVal fs k = none := by
  rw [lastPairVal, List.find?_eq_none.mpr]
  · rfl
  · intro p hp
    simp only [decide_eq_true_eq]
    intro hpk
    exact h (List.mem_map.mpr ⟨p, List.mem_reverse.mp hp, hpk⟩)

lemma lastPairVal_eq_fieldsGet {fs : Fields} (k : String)
    (h : (fs.map Prod.fst).Nodup) : lastPairVal fs k = fieldsGet fs k := by
  induction fs with
  | nil => rfl
  | cons p rest ih =>
    simp only [List.map_cons, List.nodup_cons] at h
    rw [lastPairVal_cons]
    by_cases hp : p.1 = k
    · have hnot : k ∉ rest.map Prod.fst := hp ▸ h.1
      rw [lastPairVal_none_of_not_mem hnot]
      simp only [fieldsGet]
      rw [List.find?_cons_of_pos _ (by simp [hp])]
      simp [optOr, hp]
    · simp only [fieldsGet]
      rw [List.find?_cons_of_neg _ (by simp [hp])]
      show optOr (lastPairVal rest k) (if p.1 = k then some p.2 else none) = fieldsGet rest k
      rw [ih h.2]
      cases hg : fieldsGet rest k with
      | some v => simp [optOr]
      | none => simp [optOr, hp]

lemma fieldsGet_of_mem {fs : Fields} {k : String} {v : GoVal}
    (hmem : (k, v) ∈ fs) (h : (fs.map Prod.fst).Nodup) : fieldsGet fs k = some v := by
  induction fs with
  | nil => cases hmem
  | cons p rest ih =>
    simp only [List.map_cons, List.nodup_cons] at h
    rcases List.mem_cons.mp hmem with rfl | hmem2
    · simp only [fieldsGet]
      rw [List.find?_cons_of_pos _ (by simp)]
      rfl
    · have hpk : ¬ p.1 = k := by
        intro hpk
        exact h.1 (hpk ▸ List.mem_map.mpr ⟨(k, v), hmem2, rfl⟩)
      simp only [fieldsGet]
      rw [List.find?_cons_of_neg _ (by simp [hpk])]
      simpa [fieldsGet] using ih hmem2 h.2

lemma mem_of_fieldsGet {fs : Fields} {k : String} {v : GoVal}
    (h : fieldsGet fs k = some v) : (k, v) ∈ fs := by
  rw [fieldsGet] at h
  cases hfind : List.find? (fun p => p.1 = k) fs with
  | none => rw [hfind] at h; cases h
  | some p =>
    rw [hfind] at h
    have hp1 : p.1 = k := by simpa using List.find?_some hfind
    have hp2 : p.2 = v := by simpa using h
    have := List.mem_of_find?_eq_some hfind
    rwa [← hp1, ← hp2]

lemma withContextLoop_eq {ctx : Ctx} {cks : List GoVal}
    (hok : ∀ f ∈ cks, ctxValue ctx f = none ∨ ctxValue ctx f = some .nilV ∨
      ∃ s, ctxValue ctx f = some (.str s)) :
    ∀ fs0 : Fields, withContextLoop ctx cks fs0 =
      some (List.foldl (fun acc q => fieldsSet acc q.1 q.2) fs0 (ctxPairs ctx cks)) := by
  induction cks with
  | nil => intro fs0; rfl
  | cons f rest ih =>
    intro fs0
    have hrest : ∀ g ∈ rest, ctxValue ctx g = none ∨ ctxValue ctx g = some .nilV ∨
        ∃ s, ctxValue ctx g = some (.str s) :=
      fun g hg => hok g (List.mem_cons.mpr (Or.inr hg))
    rcases hok f (List.mem_cons.mpr (Or.inl rfl)) with hf | hf | ⟨s, hf⟩
    · rw [withContextLoop, hf, ctxPairs, hf]
      exact ih hrest fs0
    · rw [withContextLoop, hf, ctxPairs, hf]
      exact ih hrest fs0
    · rw [withContextLoop, hf, ctxPairs, hf, List.foldl_cons]
      exact ih hrest _

lemma ctxPairs_mem_of {ctx : Ctx} {cks : List GoVal} {f : GoVal} {s : String}
    (hf : f ∈ cks) (hs : ctxValue ctx f = some (.str s)) :
    (goSprint f, GoVal.str s) ∈ ctxPairs ctx cks := by
  induction cks with
  | nil => cases hf
  | cons g rest ih =>
    rcases List.mem_cons.mp hf with rfl | hf2
    · rw [ctxPairs, hs]
      exact List.mem_cons.mpr (Or.inl rfl)
    · rw [ctxPairs]
      cases hg : ctxValue ctx g with
      | none => exact ih hf2
      | some w =>
        cases w <;> first
          | exact List.mem_cons.mpr (Or.inr (ih hf2))
          | exact ih hf2

lemma ctxPairs_mem_inv {ctx : Ctx} {cks : List GoVal} {k : String} {v : GoVal}
    (h : (k, v) ∈ ctxPairs ctx cks) :
    ∃ f, f ∈ cks ∧ goSprint f = k ∧ ctxValue ctx f = some v ∧ ∃ s, v = GoVal.str s := by
  induction cks with
  | nil => cases h
  | cons g rest ih =>
    rw [ctxPairs] at h
    cases hg : ctxValue ctx g with
    | none =>
      rw [hg] at h
      rcases ih h with ⟨f, hf, h1, h2, h3⟩
      exact ⟨f, List.mem_cons.mpr (Or.inr hf), h1, h2, h3⟩
    | some w =>
      rw [hg] at h
      cases w
      case str s =>
        rcases List.mem_cons.mp h with heq | h2
        · have e1 : k = goSprint g := congrArg Prod.fst heq
          have e2 : v = GoVal.str s := congrArg Prod.snd heq
          exact ⟨g, List.mem_cons.mpr (Or.inl rfl), e1.symm, by rw [hg, e2], s, e2⟩
        · rcases ih h2 with ⟨f, hf, h1, h3, h4⟩
          exact ⟨f, List.mem_cons.mpr (Or.inr hf), h1, h3, h4⟩
      all_goals
        rcases ih h with ⟨f, hf, h1, h2, h3⟩
      all_goals
        exact ⟨f, List.mem_cons.mpr (Or.inr hf), h1, h2, h3⟩

lemma fieldsGet_ne_none_of_mem {fs : Fields} {k : String} {v : GoVal}
    (hmem : (k, v) ∈ fs) : fieldsGet fs k ≠ none := by
  intro h
  rw [fieldsGet] at h
  cases hfind : List.find? (fun p => p.1 = k) fs with
  | some p => rw [hfind] at h; cases h
  | none =>
    have := List.find?_eq_none.mp hfind (k, v) hmem
    simp at this

lemma lastPairVal_eq_get_reverse (P : Fields) (k : String) :
    lastPairVal P k = fieldsGet P.reverse k := rfl

lemma ctxPairs_keys_sublist (ctx : Ctx) (cks : List GoVal) :
    ((ctxPairs ctx cks).map Prod.fst).Sublist (cks.map goSprint) := by
  induction cks with
  | nil => exact List.Sublist.refl _
  | cons g rest ih =>
    rw [ctxPairs]
    cases hg : ctxValue ctx g with
    | none => exact ih.cons _
    | some w =>
      cases w <;> first
        | · rw [List.map_cons, List.map_cons]
            exact ih.cons₂ _
        | exact ih.cons _

lemma mem_insertPair {x p : String × String} {l : List (String × String)}
    (h : x ∈ insertPair p l) : x = p ∨ x ∈ l := by
  induction l with
  | nil => simpa [insertPair] using h
  | cons q rest ih =>
    rw [insertPair] at h
    split at h
    · rcases List.mem_cons.mp h with h1 | h1
      · exact Or.inr (List.mem_cons.mpr (Or.inl h1))
      · rcases ih h1 with h2 | h2
        · exact Or.inl h2
        · exact Or.inr (List.mem_cons.mpr (Or.inr h2))
    · rcases List.mem_cons.mp h with h1 | h1
      · exact Or.inl h1
      · exact Or.inr h1

lemma pairwise_insertPair {p : String × String} {l : List (String × String)}
    (h : l.Pairwise (fun a b => a.1 ≤ b.1)) :
    (insertPair p l).Pairwise (fun a b => a.1 ≤ b.1) := by
  induction l with
  | nil => simp [insertPair]
  | cons q rest ih =>
    rcases List.pairwise_cons.mp h with ⟨hq, hrest⟩
    rw [insertPair]
    split
    · refine List.pairwise_cons.mpr ⟨?_, ih hrest⟩
      intro x hx
      rcases mem_insertPair hx with rfl | hx2
      · exact le_of_lt (by assumption)
      · exact hq x hx2
    · refine List.pairwise_cons.mpr ⟨?_, h⟩
      intro x hx
      rcases List.mem_cons.mp hx with rfl | hx2
      · exact le_of_not_lt (by assumption)
      · exact le_trans (le_of_not_lt (by assumption)) (hq x hx2)

lemma pairwise_sortPairs (l : List (String × String)) :
    (sortPairs l).Pairwise (fun a b => a.1 ≤ b.1) := by
  induction l with
  | nil => simp [sortPairs]
  | cons p rest ih => exact pairwise_insertPair ih

/-! ## The specified properties -/

/-- Claim C1: every string, signed or unsigned integer of any width,
float, boolean, `fmt.Stringer` implementor or `error` implementor is
passed through `normalizeArgs` unchanged — in particular an error
value is appended as the object itself, not its message. -/
theorem normalizeArgs_passthrough_identity (v : GoVal)
    (h : (∃ s, v = .str s) ∨ (∃ w n, v = .intV w n) ∨ (∃ w n, v = .uintV w n) ∨
         (∃ l, v = .floatV l) ∨ (∃ b, v = .boolV b) ∨ (∃ r j, v = .stringer r j) ∨
         (∃ m j, v = .errV m j)) :
    normalizeArgs [v] = [v] := by
  rcases h with ⟨s, rfl⟩ | ⟨w, n, rfl⟩ | ⟨w, n, rfl⟩ | ⟨l, rfl⟩ | ⟨b, rfl⟩ |
    ⟨r, j, rfl⟩ | ⟨m, j, rfl⟩ <;> rfl

/-- Witness for C1: an error value passes through as the object, not
as its message. -/
theorem normalizeArgs_passthrough_identity_witness :
    normalizeArgs [GoVal.errV "boom" none] = [GoVal.errV "boom" none] :=
  normalizeArgs_passthrough_identity (.errV "boom" none)
    (Or.inr (Or.inr (Or.inr (Or.inr (Or.inr (Or.inr ⟨"boom", none, rfl⟩))))))

/-- Claim C2: every value outside the pass-through classes is replaced
by its JSON encoding as a string; string-keyed map output has its keys
sorted (shown both on the two orderings of the reference map, whose
encodings coincide with the sorted form, and by sortedness of
`sortPairs`), and the reference struct encodes field-by-field in
declaration order. -/
theorem normalizeArgs_nonprimitive_json :
    (∀ v, passThrough v = false → normalizeArgs [v] = [GoVal.str (jsonString v)]) ∧
    normalizeArgs [GoVal.mapV [("b", GoVal.str "banana"), ("a", GoVal.str "apple")]]
      = [GoVal.str "\x7b\"a\":\"apple\",\"b\":\"banana\"\x7d"] ∧
    normalizeArgs [GoVal.mapV [("a", GoVal.str "apple"), ("b", GoVal.str "banana")]]
      = [GoVal.str "\x7b\"a\":\"apple\",\"b\":\"banana\"\x7d"] ∧
    normalizeArgs [GoVal.structV [("F1", GoVal.str "hello"), ("F2", GoVal.intV .i 2)]]
      = [GoVal.str "\x7b\"F1\":\"hello\",\"F2\":2\x7d"] ∧
    (∀ kvs : List (String × String), ((sortPairs kvs).map Prod.fst).Sorted (· ≤ ·)) := by
  refine ⟨?_, ?_, ?_, ?_, ?_⟩
  · intro v hv
    simp [normalizeArgs, normalizeOne, hv]
  · simp [normalizeArgs, normalizeOne, passThrough, jsonString, goJsonMarshal,
      marshalEntries, sortPairs, insertPair, renderObj, jsonQuote, jsonEscapeChar]
    decide
  · simp [normalizeArgs, normalizeOne, passThrough, jsonString, goJsonMarshal,
      marshalEntries, sortPairs, insertPair, renderObj, jsonQuote, jsonEscapeChar]
    decide
  · simp [normalizeArgs, normalizeOne, passThrough, jsonString, goJsonMarshal,
      marshalEntries, sortPairs, insertPair, renderObj, jsonQuote, jsonEscapeChar]
    decide
  · intro kvs
    exact List.Pairwise.map Prod.fst (fun a b h => h) (pairwise_sortPairs kvs)

/-- Witness for C2: the empty slice is not pass-through and is
replaced by its JSON encoding. -/
theorem normalizeArgs_nonprimitive_json_witness :
    normalizeArgs [GoVal.sliceV []] = [GoVal.str "[]"] := by
  have h := normalizeArgs_nonprimitive_json.1 (GoVal.sliceV []) rfl
  simpa [jsonString, goJsonMarshal, marshalItems] using h

/-- Claim C3: when JSON encoding of a non-pass-through element fails,
`normalizeArgs` substitutes the empty string for that element and
still processes every other element of the sequence. -/
theorem normalizeArgs_encoding_failure (pre post : List GoVal) (v : GoVal)
    (h1 : passThrough v = false) (h2 : goJsonMarshal v = none) :
    normalizeArgs (pre ++ v :: post) =
      normalizeArgs pre ++ GoVal.str "" :: normalizeArgs post := by
  induction pre with
  | nil => simp [normalizeArgs, normalizeOne, h1, jsonString, h2]
  | cons p rest ih => simp [normalizeArgs, ih]

/-- Witness for C3: a channel in mid-sequence degrades to the empty
string while its neighbours are still processed. -/
theorem normalizeArgs_encoding_failure_witness :
    normalizeArgs [GoVal.str "x", GoVal.chanV, GoVal.boolV true]
      = [GoVal.str "x", GoVal.str "", GoVal.boolV true] := by
  have h := normalizeArgs_encoding_failure [GoVal.str "x"] [GoVal.boolV true]
    GoVal.chanV rfl (by simp [goJsonMarshal])
  simpa [normalizeArgs, normalizeOne, passThrough] using h

/-- Counterexample to C4 as stated: two divergences at concrete
inputs.  First, a registered key present under a non-string value
makes the unchecked `val.(string)` assertion fail, so no field mapping
is returned.  Second, two distinct registered keys with the same `%v`
rendering — `int64(5)` and `int32(5)`, both printing `5` — are both
present with non-null string values, yet the returned mapping holds
one clobbered entry: the first key's value `a` is overwritten by the
second key's `b`, so no entry carries the first key's value. -/
theorem withContext_claim_counterexample :
    withContext [GoVal.str "k"] [(GoVal.str "k", GoVal.intV .i 5)] = none ∧
    ctxValue [(GoVal.intV .i64 5, GoVal.str "a"), (GoVal.intV .i32 5, GoVal.str "b")]
      (GoVal.intV .i64 5) = some (GoVal.str "a") ∧
    ctxValue [(GoVal.intV .i64 5, GoVal.str "a"), (GoVal.intV .i32 5, GoVal.str "b")]
      (GoVal.intV .i32 5) = some (GoVal.str "b") ∧
    goSprint (GoVal.intV .i64 5) = "5" ∧
    goSprint (GoVal.intV .i32 5) = "5" ∧
    withContext [GoVal.intV .i64 5, GoVal.intV .i32 5]
      [(GoVal.intV .i64 5, GoVal.str "a"), (GoVal.intV .i32 5, GoVal.str "b")]
      = some [("5", GoVal.str "b")] := by
  refine ⟨?_, ?_, ?_, ?_, ?_, ?_⟩ <;>
    · simp [withContext, withContextLoop, ctxValue, goEq, List.find?, fieldsSet, goSprint]
      <;> decide

/-- Claim C4 (amended): provided every registered key's non-null
context value is a string, extraction returns a field mapping without
error.  The mapping's lookups equal the last write among the
registered keys' extractions in registration order — so when distinct
registered keys share a printed name, the last one's value wins.
Consequently an entry exists under the printed name of every
registered key whose lookup is a non-null string; every entry of the
mapping stems from some registered key's non-null string lookup; and
a registered key that is absent from the context (or present with a
nil value), with no other registered key printing the same name and
carrying a non-null value, contributes no entry — no null or empty
placeholder. -/
theorem withContext_extraction (cks : List GoVal) (ctx : Ctx)
    (hok : ∀ f ∈ cks, ctxValue ctx f = none ∨ ctxValue ctx f = some .nilV ∨
      ∃ s, ctxValue ctx f = some (.str s)) :
    ∃ fs, withContext cks ctx = some fs ∧
      (∀ k, fieldsGet fs k = lastPairVal (ctxPairs ctx cks) k) ∧
      (∀ f ∈ cks, ∀ s, ctxValue ctx f = some (.str s) →
        fieldsGet fs (goSprint f) ≠ none) ∧
      (∀ k v, fieldsGet fs k = some v →
        ∃ f, f ∈ cks ∧ goSprint f = k ∧ ctxValue ctx f = some v ∧ ∃ s, v = GoVal.str s) ∧
      (∀ f ∈ cks,
        (∀ f2 ∈ cks, goSprint f2 = goSprint f →
          ctxValue ctx f2 = none ∨ ctxValue ctx f2 = some .nilV) →
        fieldsGet fs (goSprint f) = none) := by
  set fs := List.foldl (fun acc q => fieldsSet acc q.1 q.2) ([] : Fields) (ctxPairs ctx cks)
    with hfs
  have hget : ∀ k, fieldsGet fs k = lastPairVal (ctxPairs ctx cks) k := by
    intro k
    rw [hfs, fieldsGet_foldlSet]
    cases hl : lastPairVal (ctxPairs ctx cks) k <;> simp [optOr, fieldsGet]
  refine ⟨fs, ?_, hget, ?_, ?_, ?_⟩
  · rw [withContext]
    exact withContextLoop_eq hok []
  · intro f hf s hs
    rw [hget, lastPairVal_eq_get_reverse]
    exact fieldsGet_ne_none_of_mem (List.mem_reverse.mpr (ctxPairs_mem_of hf hs))
  · intro k v hv
    rw [hget, lastPairVal_eq_get_reverse] at hv
    exact ctxPairs_mem_inv (List.mem_reverse.mp (mem_of_fieldsGet hv))
  · intro f hf hall
    cases hv : fieldsGet fs (goSprint f) with
    | none => rfl
    | some v =>
      exfalso
      rw [hget, lastPairVal_eq_get_reverse] at hv
      rcases ctxPairs_mem_inv (List.mem_reverse.mp (mem_of_fieldsGet hv)) with
        ⟨f2, hf2, hpr, hval, s, rfl⟩
      rcases hall f2 hf2 hpr with h | h
      · rw [h] at hval; cases hval
      · rw [h] at hval
        cases hval

/-- Witness for C4: the registered keys `requestId`, `userId` with the
test context extract exactly the two expected entries. -/
theorem withContext_extraction_witness :
    (withContext [GoVal.str "requestId", GoVal.str "userId"]
        [(GoVal.str "userId", GoVal.str "user-id"),
         (GoVal.str "requestId", GoVal.str "request-id")]).map
      (fun fs => (fieldsGet fs "requestId", fieldsGet fs "userId"))
      = some (some (GoVal.str "request-id"), some (GoVal.str "user-id")) := by
  obtain ⟨fs, h1, hget, h3, h4, h5⟩ := withContext_extraction
    [GoVal.str "requestId", GoVal.str "userId"]
    [(GoVal.str "userId", GoVal.str "user-id"),
     (GoVal.str "requestId", GoVal.str "request-id")]
    (by
      intro f hf
      rcases List.mem_cons.mp hf with rfl | hf2
      · exact Or.inr (Or.inr ⟨"request-id", by simp [ctxValue, goEq, List.find?]⟩)
      · rcases List.mem_cons.mp hf2 with rfl | hf3
        · exact Or.inr (Or.inr ⟨"user-id", by simp [ctxValue, goEq, List.find?]⟩)
        · cases hf3)
  rw [h1]
  simp [hget, ctxPairs, ctxValue, goEq, List.find?, goSprint, lastPairVal]

/-- Claim C5: the final field set of a log call applies context-derived
fields first and the explicitly supplied fields afterwards, so on a
key collision the explicit field's value wins, and within the explicit
fields the last write for a key wins. -/
theorem info_field_merge_order (cks : List GoVal) (ctx : Ctx) (i : GoVal)
    (flds : List Fld) (cf : Fields) (h : withContext cks ctx = some cf) :
    Info cks ctx i flds = some ⟨entryWithFields cf (applyFlds flds), some i, none, []⟩ ∧
    (∀ k, fieldsGet (entryWithFields cf (applyFlds flds)) k
        = optOr (fieldsGet (applyFlds flds) k) (fieldsGet cf k)) ∧
    (∀ k, fieldsGet (applyFlds flds) k = lastFldVal flds k) := by
  have happ : applyFlds flds =
      List.foldl (fun acc q => fieldsSet acc q.1 q.2) ([] : Fields)
        (flds.map fun f => (f.key, f.value)) := by
    rw [applyFlds, List.foldl_map]
  have hkeys : ((applyFlds flds).map Prod.fst).Nodup := by
    rw [happ]
    exact keys_foldlSet _ [] (by simp)
  have hlast : ∀ k, fieldsGet (applyFlds flds) k = lastFldVal flds k := by
    intro k
    rw [happ, fieldsGet_foldlSet]
    have e : lastPairVal ((flds.map fun f => (f.key, f.value))) k = lastFldVal flds k := by
      rw [lastPairVal, lastFldVal, ← List.map_reverse, List.find?_map, Option.map_map]
      rfl
    rw [e]
    cases hl : lastFldVal flds k <;> simp [optOr, fieldsGet]
  refine ⟨by simp [Info, h], ?_, hlast⟩
  intro k
  rw [entryWithFields, fieldsGet_foldlSet, lastPairVal_eq_fieldsGet _ hkeys]

/-- Witness for C5: explicit fields override a colliding context field
and later explicit writes override earlier ones. -/
theorem info_field_merge_order_witness :
    fieldsGet (entryWithFields [("ctxKey", GoVal.str "ctxVal"), ("a", GoVal.str "0")]
        (applyFlds [Field "a" (GoVal.str "1"), Field "a" (GoVal.str "2"),
          Field "b" (GoVal.str "3")])) "a" = some (GoVal.str "2") := by
  have h := info_field_merge_order [GoVal.str "ctxKey", GoVal.str "a"]
    [(GoVal.str "ctxKey", GoVal.str "ctxVal"), (GoVal.str "a", GoVal.str "0")]
    (GoVal.str "m")
    [Field "a" (GoVal.str "1"), Field "a" (GoVal.str "2"), Field "b" (GoVal.str "3")]
    [("ctxKey", GoVal.str "ctxVal"), ("a", GoVal.str "0")]
    (by simp [withContext, withContextLoop, ctxValue, goEq, List.find?, fieldsSet, goSprint])
  rw [h.2.1 "a", h.2.2 "a"]
  simp [lastFldVal, Field, List.find?, optOr]

/-- Claim C6: `normalizeArgs` is order-preserving with a 1:1 length
correspondence — element `i` of the output is the normalization of
element `i` of the input — and the empty input yields the empty
output. -/
theorem normalizeArgs_order_and_length (a : List GoVal) (i : Nat) :
    (normalizeArgs a).length = a.length ∧
    (normalizeArgs a)[i]? = (a[i]?).map normalizeOne ∧
    normalizeArgs ([] : List GoVal) = [] := by
  refine ⟨?_, ?_, rfl⟩ <;> simp [normalizeArgs_eq_map]

/-- Counterexample to C7 as stated: `Fatalf` hands the backend its raw
argument slice, which differs from the normalized slice on a map
argument. -/
theorem fatalf_args_not_normalized :
    (Fatalf [] [] "%v" [GoVal.mapV [("a", GoVal.str "apple")]]).map Emission.args ≠
      some (normalizeArgs [GoVal.mapV [("a", GoVal.str "apple")]]) := by
  simp [Fatalf, withContext, withContextLoop, normalizeArgs, normalizeOne, passThrough,
    jsonString, goJsonMarshal, marshalEntries, sortPairs, insertPair, renderObj, jsonQuote,
    jsonEscapeChar]

/-- Claim C7 (amended): the formatted call shapes of Debug, Info, Warn
and Error pass their variadic args through `normalizeArgs` before
emitting via the backend's format-string facility; `Fatalf` alone
passes its args to the backend unchanged. -/
theorem levelf_argument_normalization (cks : List GoVal) (ctx : Ctx) (fm : String)
    (a : List GoVal) :
    (Infof cks ctx fm a).map Emission.args
      = (withContext cks ctx).map (fun _ => normalizeArgs a) ∧
    (Warnf cks ctx fm a).map Emission.args
      = (withContext cks ctx).map (fun _ => normalizeArgs a) ∧
    (Errorf cks ctx fm a).map Emission.args
      = (withContext cks ctx).map (fun _ => normalizeArgs a) ∧
    (Debugf cks ctx fm a).map Emission.args
      = (withContext cks ctx).map (fun _ => normalizeArgs a) ∧
    (Fatalf cks ctx fm a).map Emission.args
      = (withContext cks ctx).map (fun _ => a) := by
  cases h : withContext cks ctx <;>
    simp [Infof, Warnf, Errorf, Debugf, Fatalf, h]

/-- Claim C8: `Field` stores the value unchanged unless it is
error-typed, in which case the textual message replaces the value at
construction time and the error object is not retained. -/
theorem field_error_message_eager (k : String) (v : GoVal) :
    (∀ m j, v = .errV m j → Field k v = ⟨k, .str m⟩) ∧
    ((∀ m j, v ≠ .errV m j) → Field k v = ⟨k, v⟩) := by
  constructor
  · rintro m j rfl
    rfl
  · intro h
    cases v <;> first | rfl | exact absurd rfl (h _ _)

/-- Witness for C8: an error value is replaced by its message; an
integer value is stored unchanged. -/
theorem field_error_message_eager_witness :
    Field "err" (GoVal.errV "boom" none) = ⟨"err", GoVal.str "boom"⟩ ∧
    Field "n" (GoVal.intV .i 7) = ⟨"n", GoVal.intV .i 7⟩ :=
  ⟨(field_error_message_eager "err" (.errV "boom" none)).1 "boom" none rfl,
   (field_error_message_eager "n" (.intV .i 7)).2 (fun _ _ h => GoVal.noConfusion h)⟩

/-- Claim C9: `FormatterFromName` matches the three known names
case-insensitively and every unknown name falls back to the JSON
formatter; in particular `bogus` resolves to JSON and `TEXT` to the
text formatter. -/
theorem formatter_from_name_resolution (s : String) :
    (stringsToLower s = "simple" → FormatterFromName s = .SimpleFormatter) ∧
    (stringsToLower s = "text" → FormatterFromName s = .TextFormatter) ∧
    (stringsToLower s = "json" → FormatterFromName s = .JSONFormatter) ∧
    (stringsToLower s ≠ "simple" → stringsToLower s ≠ "text" → stringsToLower s ≠ "json" →
      FormatterFromName s = .JSONFormatter) ∧
    FormatterFromName "bogus" = .JSONFormatter ∧
    FormatterFromName "TEXT" = .TextFormatter := by
  refine ⟨?_, ?_, ?_, ?_, by decide, by decide⟩ <;>
    · intros
      simp_all [FormatterFromName]

/-- Witness for C9: `SIMPLE` lower-cases to `simple` and resolves to
the simple formatter. -/
theorem formatter_from_name_resolution_witness :
    stringsToLower "SIMPLE" = "simple" ∧
    FormatterFromName "SIMPLE" = .SimpleFormatter :=
  ⟨by decide, (formatter_from_name_resolution "SIMPLE").1 (by decide)⟩

/-- Claim C10: a registered key present in the context with a non-null
non-string value makes the unchecked string type assertion in
`withContext` fail, so the log call ends in a runtime panic (modelled
as `none`) rather than skipping the key or coercing the value. -/
theorem withContext_type_assertion_failure (cks : List GoVal) (ctx : Ctx) (f v : GoVal)
    (hf : f ∈ cks) (hv : ctxValue ctx f = some v)
    (hnil : v ≠ .nilV) (hstr : ∀ s, v ≠ .str s) :
    withContext cks ctx = none := by
  rw [withContext]
  generalize ([] : Fields) = fs0
  induction cks generalizing fs0 with
  | nil => cases hf
  | cons g rest ih =>
    rw [withContextLoop]
    rcases List.mem_cons.mp hf with rfl | hf2
    · rw [hv]
      cases v <;> first | rfl | exact absurd rfl hnil | exact absurd rfl (hstr _)
    · cases hg : ctxValue ctx g with
      | none => exact ih hf2 _
      | some w =>
        cases w <;> first | rfl | exact ih hf2 _

/-- Witness for C10: an integer stored under a registered key makes
extraction fail. -/
theorem withContext_type_assertion_failure_witness :
    withContext [GoVal.str "u"] [(GoVal.str "u", GoVal.intV .i 7)] = none :=
  withContext_type_assertion_failure [GoVal.str "u"] [(GoVal.str "u", GoVal.intV .i 7)]
    (GoVal.str "u") (GoVal.intV .i 7)
    (List.mem_singleton.mpr rfl) (by simp [ctxValue, goEq])
    (fun h => GoVal.noConfusion h) (fun s h => GoVal.noConfusion h)

end GoLog
